import Mathlib

/-!
Verification model of the shard-tracking core of `MockGlobalState.h`
(`fdbserver/include/fdbserver/MockGlobalState.h`).

Keys are modelled by their rank in the total key order, as natural numbers;
the full key space `allKeys` is the half-open interval `[0, allKeysEnd)`.
A `KeyRangeMap` is modelled as the ordered list of its `(range, value)`
entries; the covering invariant (disjoint, contiguous, gap-free) is the
executable predicate `coversFrom`.

The bodies of `MockStorageServer::setShardStatus`, `removeShard`, the two
splitting helpers and the `MockGlobalState` predicates live in
`MockGlobalState.cpp`, which is not part of the sources at hand; those
definitions are modelled from the spec (each is marked `Modelled from the
spec:`). The transition validator `isStatusTransitionValid` is translated
directly from the header, where it is defined inline.
-/

/-- `enum class MockShardStatus { EMPTY = 0, COMPLETED, INFLIGHT, UNSET }`. -/
inductive MockShardStatus where
  | EMPTY
  | COMPLETED
  | INFLIGHT
  | UNSET
deriving DecidableEq, Repr

/-- Translation of the inline `isStatusTransitionValid` of `MockGlobalState.h`:
`UNSET`, `EMPTY` and `INFLIGHT` may move to `COMPLETED`, `INFLIGHT` or `EMPTY`;
`COMPLETED` may move only to `EMPTY`. -/
def isStatusTransitionValid (f t : MockShardStatus) : Bool :=
  match f with
  | .UNSET | .EMPTY | .INFLIGHT =>
      t == .COMPLETED || t == .INFLIGHT || t == .EMPTY
  | .COMPLETED => t == .EMPTY

/-- A key range `[lo, hi)`, keys being identified with their rank (`Nat`). -/
structure KeyRangeRef where
  lo : Nat
  hi : Nat
deriving DecidableEq, Repr

/-- `struct ShardInfo { MockShardStatus status; uint64_t shardSize; }`. -/
structure ShardInfo where
  status : MockShardStatus
  shardSize : Nat
deriving DecidableEq, Repr

/-- End of the modelled key space (`allKeys.end`); keys are ranks below it. -/
def allKeysEnd : Nat := 2 ^ 64

/-- `static constexpr uint64_t DEFAULT_DISK_SPACE = 1000LL * 1024 * 1024 * 1024`. -/
def DEFAULT_DISK_SPACE : Nat := 1000 * 1024 * 1024 * 1024

/-- Two key ranges overlap iff each starts before the other ends. -/
def overlaps (a b : KeyRangeRef) : Bool :=
  a.lo < b.hi && b.lo < a.hi

/-- The entry list of a `KeyRangeMap`, in key order. -/
abbrev EntryList := List (KeyRangeRef × ShardInfo)

/-- `coversFrom pos endK l` holds iff the entries of `l` tile `[pos, endK)`
exactly: each entry is nonempty, starts where the previous one ended, and the
last one ends at `endK`.  This is the covering invariant of `KeyRangeMap`. -/
def coversFrom (pos endK : Nat) : EntryList → Bool
  | [] => pos == endK
  | e :: rest => e.1.lo == pos && decide (pos < e.1.hi) && coversFrom e.1.hi endK rest

/-- Model of `MockStorageServer` (its fields used by the shard-tracking core). -/
structure MockStorageServer where
  usedDiskSpace : Nat := 0
  availableDiskSpace : Nat := DEFAULT_DISK_SPACE
  serverKeys : EntryList := [(⟨0, allKeysEnd⟩, ⟨.UNSET, 0⟩)]
  id : Nat := 0
deriving DecidableEq, Repr, Inhabited

/-- A server's range index covers the whole key space. -/
def fullyCovers (mss : MockStorageServer) : Bool :=
  coversFrom 0 allKeysEnd mss.serverKeys

/-- A size drawn from the configured band: always lands in `[minB, maxB]`
when `minB ≤ maxB`. -/
def sampleBand (minB maxB x : Nat) : Nat :=
  minB + x % (maxB - minB + 1)

/-- Modelled from the spec: `MockStorageServer::twoWayShardSplitting` (body in
`MockGlobalState.cpp`, absent from the sources).  Divides the shard over `r`
at `splitPoint` into two adjacent sub-shards keeping the old status; if
`restrictSize` the sizes are proportional to sub-range width and sum exactly
to the old size, otherwise each is sampled from the configured band. -/
def twoWayShardSplitting (r : KeyRangeRef) (splitPoint : Nat) (info : ShardInfo)
    (restrictSize : Bool) (minB maxB : Nat) (sample : Nat → Nat) : EntryList :=
  let leftSize := if restrictSize
    then info.shardSize * (splitPoint - r.lo) / (r.hi - r.lo)
    else sampleBand minB maxB (sample 0)
  let rightSize := if restrictSize
    then info.shardSize - leftSize
    else sampleBand minB maxB (sample 1)
  [(⟨r.lo, splitPoint⟩, ⟨info.status, leftSize⟩),
   (⟨splitPoint, r.hi⟩, ⟨info.status, rightSize⟩)]

/-- Modelled from the spec: `MockStorageServer::threeWayShardSplitting` (body
in `MockGlobalState.cpp`, absent from the sources).  Divides the shard over
`outerRange` into (left remainder, `innerRange`, right remainder), keeping the
old status; sizes follow the same policy as the two-way split. -/
def threeWayShardSplitting (outerRange innerRange : KeyRangeRef) (info : ShardInfo)
    (restrictSize : Bool) (minB maxB : Nat) (sample : Nat → Nat) : EntryList :=
  let w := outerRange.hi - outerRange.lo
  let leftSize := if restrictSize
    then info.shardSize * (innerRange.lo - outerRange.lo) / w
    else sampleBand minB maxB (sample 0)
  let midSize := if restrictSize
    then info.shardSize * (innerRange.hi - innerRange.lo) / w
    else sampleBand minB maxB (sample 1)
  let rightSize := if restrictSize
    then info.shardSize - leftSize - midSize
    else sampleBand minB maxB (sample 2)
  [(⟨outerRange.lo, innerRange.lo⟩, ⟨info.status, leftSize⟩),
   (innerRange, ⟨info.status, midSize⟩),
   (⟨innerRange.hi, outerRange.hi⟩, ⟨info.status, rightSize⟩)]

/-- Modelled from the spec: the boundary-alignment step of
`MockStorageServer::setShardStatus` (§4.3).  An entry untouched by `range` is
kept; an entry with one boundary of `range` strictly inside it is split
two-way; an entry strictly containing `range` is split three-way. -/
def splitEntry (range : KeyRangeRef) (restrictSize : Bool) (minB maxB : Nat)
    (sample : Nat → Nat → Nat) (e : KeyRangeRef × ShardInfo) : EntryList :=
  if e.1.hi ≤ range.lo ∨ range.hi ≤ e.1.lo then [e]
  else if e.1.lo < range.lo ∧ range.hi < e.1.hi then
    threeWayShardSplitting e.1 range e.2 restrictSize minB maxB (sample e.1.lo)
  else if e.1.lo < range.lo then
    twoWayShardSplitting e.1 range.lo e.2 restrictSize minB maxB (sample e.1.lo)
  else if range.hi < e.1.hi then
    twoWayShardSplitting e.1 range.hi e.2 restrictSize minB maxB (sample e.1.lo)
  else [e]

/-- Applies `splitEntry` to every entry of the index, in order. -/
def splitAll (range : KeyRangeRef) (restrictSize : Bool) (minB maxB : Nat)
    (sample : Nat → Nat → Nat) : EntryList → EntryList
  | [] => []
  | e :: rest =>
      splitEntry range restrictSize minB maxB sample e ++
        splitAll range restrictSize minB maxB sample rest

/-- Drops the leading entries that end at or before `stop`. -/
def dropBelow (stop : Nat) : EntryList → EntryList
  | [] => []
  | e :: rest => if e.1.hi ≤ stop then dropBelow stop rest else e :: rest

/-- Emits the freshly installed entry `([lo, hi), info)`, coalesced with its
right neighbor when that neighbor is adjacent and carries an equal value
(§4.1: adjacent entries with equal values beside the inserted range merge). -/
def consCoalesced (lo hi : Nat) (info : ShardInfo) : EntryList → EntryList
  | [] => [(⟨lo, hi⟩, info)]
  | f :: rest =>
      if f.1.lo = hi ∧ f.2 = info then (⟨lo, f.1.hi⟩, info) :: rest
      else (⟨lo, hi⟩, info) :: f :: rest

/-- Modelled from the spec: `KeyRangeMap::insert` over an already aligned
index (§4.1) — replaces the entries under `range` by the single entry
`(range, info)`, keeping everything outside `range`; the adjacent entry on
either side of the inserted range is coalesced into it when it carries an
equal value, so no two adjacent entries around the insertion stay equal. -/
def insertAligned (range : KeyRangeRef) (info : ShardInfo) : EntryList → EntryList
  | [] => []
  | e :: rest =>
      if e.1.hi ≤ range.lo then
        if e.1.hi = range.lo ∧ e.2 = info then
          insertAligned ⟨e.1.lo, range.hi⟩ info rest
        else e :: insertAligned range info rest
      else consCoalesced range.lo range.hi info (dropBelow range.hi (e :: rest))

/-- Sum of the sizes of the entries lying inside `range` (used as the size of
the freshly installed entry, so that a `restrictSize` update conserves the
total size under `range`). -/
def sumSizesWithin (range : KeyRangeRef) (l : EntryList) : Nat :=
  ((l.filter fun e => decide (range.lo ≤ e.1.lo) && decide (e.1.hi ≤ range.hi)).map
    fun e => e.2.shardSize).sum

/-- Modelled from the spec: `MockStorageServer::setShardStatus` (§4.3; body in
`MockGlobalState.cpp`, absent from the sources).  Every existing shard
overlapping `range` must satisfy the transition table against the new status
— otherwise the call is a fatal assertion, modelled as `none`; likewise the
caller must address a nonempty set of shards.  On success the boundary shards
are split so `range` is exactly aligned, and `(range, {status, size})` is
installed. -/
def setShardStatus (mss : MockStorageServer) (range : KeyRangeRef)
    (status : MockShardStatus) (restrictSize : Bool) (minB maxB : Nat)
    (sample : Nat → Nat → Nat) : Option MockStorageServer :=
  let overlapping := mss.serverKeys.filter fun e => overlaps e.1 range
  if overlapping.isEmpty then none
  else if overlapping.all fun e => isStatusTransitionValid e.2.status status then
    let aligned := splitAll range restrictSize minB maxB sample mss.serverKeys
    some { mss with serverKeys :=
            insertAligned range ⟨status, sumSizesWithin range aligned⟩ aligned }
  else none

/-- Modelled from the spec: `MockStorageServer::removeShard` (§4.3; body in
`MockGlobalState.cpp`, absent from the sources).  `range` must already be
boundary-aligned with existing entries — no splitting is performed; a
mis-aligned call is a fatal assertion, modelled as `none`.  When aligned, the
association is deleted by installing the `UNSET` default entry over `range`. -/
def removeShard (mss : MockStorageServer) (range : KeyRangeRef) :
    Option MockStorageServer :=
  if (mss.serverKeys.any fun e => e.1.lo == range.lo) &&
     (mss.serverKeys.any fun e => e.1.hi == range.hi) then
    some { mss with serverKeys := insertAligned range ⟨.UNSET, 0⟩ mss.serverKeys }
  else none

/-- `MockStorageServer::allShardStatusEqual` (§4.3): every entry intersecting
`range` has exactly the given status.  Modelled from the spec (body in
`MockGlobalState.cpp`, absent from the sources). -/
def allShardStatusEqual (mss : MockStorageServer) (range : KeyRangeRef)
    (status : MockShardStatus) : Bool :=
  mss.serverKeys.all fun e => !(overlaps e.1 range) || e.2.status == status

/-- A team: the set of server identities jointly holding a replica set. -/
abbrev Team := List Nat

/-- Model of `MockGlobalState`: the server collection, the team-assignment
mapping of `ShardsAffectedByTeamFailure` (source teams, destination teams per
shard range), and the size-band parameters. -/
structure MockGlobalState where
  shardMapping : List (KeyRangeRef × (List Team × List Team)) := []
  allServers : List (Nat × MockStorageServer) := []
  minByteSize : Nat := 0
  maxByteSize : Nat := 0
  restrictSize : Bool := true
deriving Repr, Inhabited

/-- First-match lookup in the server collection (`allServers`). -/
def lookupServer (servers : List (Nat × MockStorageServer)) (serverId : Nat) :
    Option MockStorageServer :=
  match servers with
  | [] => none
  | (uid, mss) :: rest =>
      if uid == serverId then some mss else lookupServer rest serverId

/-- The (source teams, destination teams) recorded for `shard` in the
team-assignment map; a shard with no record has no teams. -/
def getTeamsFor (shardMapping : List (KeyRangeRef × (List Team × List Team)))
    (shard : KeyRangeRef) : List Team × List Team :=
  match shardMapping with
  | [] => ([], [])
  | (r, teams) :: rest => if r == shard then teams else getTeamsFor rest shard

/-- Modelled from the spec: `MockGlobalState::addStorageServer` (§4.4; body in
`MockGlobalState.cpp`, absent from the sources).  Inserts a new server model
with the given disk capacity, its index one full-keyspace entry at the
`UNSET` starting status. -/
def addStorageServer (mgs : MockGlobalState) (serverId : Nat) (diskSpace : Nat) :
    MockGlobalState :=
  { mgs with allServers :=
      (serverId,
        { usedDiskSpace := 0
          availableDiskSpace := diskSpace
          serverKeys := [(⟨0, allKeysEnd⟩, ⟨.UNSET, 0⟩)]
          id := serverId }) :: mgs.allServers }

/-- Modelled from the spec: `MockGlobalState::serverIsSourceForShard` (§4.4;
body in `MockGlobalState.cpp`, absent from the sources).  True iff some team
containing the server is listed as a source team for `shard` and the server's
local status for `shard` is `COMPLETED`. -/
def serverIsSourceForShard (mgs : MockGlobalState) (serverId : Nat)
    (shard : KeyRangeRef) : Bool :=
  match lookupServer mgs.allServers serverId with
  | none => false
  | some mss =>
      allShardStatusEqual mss shard .COMPLETED &&
        ((getTeamsFor mgs.shardMapping shard).1.any fun team => team.contains serverId)

/-- Modelled from the spec: `MockGlobalState::serverIsDestForShard` (§4.4;
body in `MockGlobalState.cpp`, absent from the sources).  True iff some team
containing the server is listed as a destination team for `shard` and the
server's local status for `shard` is `INFLIGHT` or `COMPLETED`. -/
def serverIsDestForShard (mgs : MockGlobalState) (serverId : Nat)
    (shard : KeyRangeRef) : Bool :=
  match lookupServer mgs.allServers serverId with
  | none => false
  | some mss =>
      (mss.serverKeys.all fun e =>
          !(overlaps e.1 shard) || (e.2.status == .INFLIGHT || e.2.status == .COMPLETED)) &&
        ((getTeamsFor mgs.shardMapping shard).2.any fun team => team.contains serverId)

/-! ### Helper lemmas about the covering invariant -/

theorem coversFrom_le {endK : Nat} :
    ∀ {l : EntryList} {pos : Nat}, coversFrom pos endK l = true → pos ≤ endK := by
  intro l
  induction l with
  | nil =>
      intro pos h
      simp only [coversFrom, beq_iff_eq] at h
      omega
  | cons e rest ih =>
      intro pos h
      simp only [coversFrom, Bool.and_eq_true, beq_iff_eq, decide_eq_true_eq, true_and, and_true] at h
      have := ih h.2
      omega

theorem coversFrom_mem_bounds {endK : Nat} :
    ∀ {l : EntryList} {pos : Nat}, coversFrom pos endK l = true →
      ∀ e ∈ l, pos ≤ e.1.lo ∧ e.1.lo < e.1.hi ∧ e.1.hi ≤ endK := by
  intro l
  induction l with
  | nil => intro pos _ e he; simp at he
  | cons e0 rest ih =>
      intro pos h e he
      simp only [coversFrom, Bool.and_eq_true, beq_iff_eq, decide_eq_true_eq, true_and, and_true] at h
      rcases List.mem_cons.mp he with rfl | hmem
      · exact ⟨by omega, by omega, coversFrom_le h.2⟩
      · have := ih h.2 e hmem
        omega

theorem coversFrom_exists_mem {endK x : Nat} :
    ∀ {l : EntryList} {pos : Nat}, coversFrom pos endK l = true →
      pos ≤ x → x < endK → ∃ e ∈ l, e.1.lo ≤ x ∧ x < e.1.hi := by
  intro l
  induction l with
  | nil =>
      intro pos h hx hxe
      simp only [coversFrom, beq_iff_eq] at h
      omega
  | cons e rest ih =>
      intro pos h hx hxe
      simp only [coversFrom, Bool.and_eq_true, beq_iff_eq, decide_eq_true_eq, true_and, and_true] at h
      by_cases hcase : x < e.1.hi
      · exact ⟨e, List.mem_cons_self _ _, by omega, hcase⟩
      · obtain ⟨e', hmem, hb⟩ := ih h.2 (by omega) hxe
        exact ⟨e', List.mem_cons_of_mem _ hmem, hb⟩

theorem coversFrom_append {endK mid : Nat} :
    ∀ {l1 l2 : EntryList} {pos : Nat}, coversFrom pos mid l1 = true →
      coversFrom mid endK l2 = true → coversFrom pos endK (l1 ++ l2) = true := by
  intro l1
  induction l1 with
  | nil =>
      intro l2 pos h1 h2
      simp only [coversFrom, beq_iff_eq] at h1
      simpa [h1] using h2
  | cons e rest ih =>
      intro l2 pos h1 h2
      simp only [coversFrom, Bool.and_eq_true, beq_iff_eq, decide_eq_true_eq, true_and, and_true] at h1 ⊢
      exact ⟨⟨h1.1.1, h1.1.2⟩, ih h1.2 h2⟩

theorem coversFrom_splitEntry {range : KeyRangeRef} {restrictSize : Bool}
    {minB maxB : Nat} {sample : Nat → Nat → Nat} {e : KeyRangeRef × ShardInfo}
    (he : e.1.lo < e.1.hi) (hr : range.lo < range.hi) :
    coversFrom e.1.lo e.1.hi (splitEntry range restrictSize minB maxB sample e) = true := by
  unfold splitEntry
  split
  · simp only [coversFrom, Bool.and_eq_true, beq_iff_eq, decide_eq_true_eq, true_and, and_true]
    omega
  · split
    · rename_i hout hin
      simp only [threeWayShardSplitting, coversFrom, Bool.and_eq_true, beq_iff_eq,
        decide_eq_true_eq, true_and, and_true]
      omega
    · split
      · rename_i hout hnin hleft
        push_neg at hout
        simp only [twoWayShardSplitting, coversFrom, Bool.and_eq_true, beq_iff_eq,
          decide_eq_true_eq, true_and, and_true]
        omega
      · split
        · rename_i hout hnin hnleft hright
          push_neg at hout
          simp only [twoWayShardSplitting, coversFrom, Bool.and_eq_true, beq_iff_eq,
            decide_eq_true_eq, true_and, and_true]
          omega
        · simp only [coversFrom, Bool.and_eq_true, beq_iff_eq, decide_eq_true_eq, true_and, and_true]
          omega

theorem coversFrom_splitAll {endK : Nat} {range : KeyRangeRef} {restrictSize : Bool}
    {minB maxB : Nat} {sample : Nat → Nat → Nat} (hr : range.lo < range.hi) :
    ∀ {l : EntryList} {pos : Nat}, coversFrom pos endK l = true →
      coversFrom pos endK (splitAll range restrictSize minB maxB sample l) = true := by
  intro l
  induction l with
  | nil => intro pos h; simpa [splitAll] using h
  | cons e rest ih =>
      intro pos h
      simp only [coversFrom, Bool.and_eq_true, beq_iff_eq, decide_eq_true_eq, true_and, and_true] at h
      have hsplit := @coversFrom_splitEntry range restrictSize minB maxB sample e
        (by omega) hr
      rw [splitAll]
      have hsplit' : coversFrom pos e.1.hi
          (splitEntry range restrictSize minB maxB sample e) = true := by
        rwa [h.1.1] at hsplit
      exact coversFrom_append hsplit' (ih h.2)

theorem mem_splitAll {range : KeyRangeRef} {restrictSize : Bool} {minB maxB : Nat}
    {sample : Nat → Nat → Nat} {p : KeyRangeRef × ShardInfo} :
    ∀ {l : EntryList}, (∃ e ∈ l, p ∈ splitEntry range restrictSize minB maxB sample e) →
      p ∈ splitAll range restrictSize minB maxB sample l := by
  intro l
  induction l with
  | nil => rintro ⟨e, he, -⟩; simp at he
  | cons e0 rest ih =>
      rintro ⟨e, he, hp⟩
      rw [splitAll]
      rcases List.mem_cons.mp he with rfl | hmem
      · exact List.mem_append_left _ hp
      · exact List.mem_append_right _ (ih ⟨e, hmem, hp⟩)

theorem splitEntry_lo_boundary {range : KeyRangeRef} {restrictSize : Bool}
    {minB maxB : Nat} {sample : Nat → Nat → Nat} {e : KeyRangeRef × ShardInfo}
    (h1 : e.1.lo ≤ range.lo) (h2 : range.lo < e.1.hi) (hr : range.lo < range.hi) :
    ∃ p ∈ splitEntry range restrictSize minB maxB sample e, p.1.lo = range.lo := by
  unfold splitEntry
  split
  · rename_i hout
    exfalso
    rcases hout with h | h <;> omega
  · split
    · simp only [threeWayShardSplitting, List.mem_cons]
      exact ⟨_, Or.inr (Or.inl rfl), rfl⟩
    · split
      · simp only [twoWayShardSplitting, List.mem_cons]
        exact ⟨_, Or.inr (Or.inl rfl), rfl⟩
      · rename_i hout hnin hnleft
        have hlo : e.1.lo = range.lo := by omega
        split
        · simp only [twoWayShardSplitting, List.mem_cons]
          exact ⟨_, Or.inl rfl, hlo⟩
        · exact ⟨e, List.mem_cons_self _ _, hlo⟩

theorem splitEntry_hi_boundary {range : KeyRangeRef} {restrictSize : Bool}
    {minB maxB : Nat} {sample : Nat → Nat → Nat} {e : KeyRangeRef × ShardInfo}
    (h1 : e.1.lo < range.hi) (h2 : range.hi ≤ e.1.hi) (hr : range.lo < range.hi) :
    ∃ p ∈ splitEntry range restrictSize minB maxB sample e, p.1.hi = range.hi := by
  unfold splitEntry
  split
  · rename_i hout
    exfalso
    rcases hout with h | h <;> omega
  · split
    · simp only [threeWayShardSplitting, List.mem_cons]
      exact ⟨_, Or.inr (Or.inl rfl), rfl⟩
    · split
      · rename_i hout hnin hleft
        have hhi : e.1.hi = range.hi := by omega
        simp only [twoWayShardSplitting, List.mem_cons]
        exact ⟨_, Or.inr (Or.inl rfl), hhi⟩
      · split
        · simp only [twoWayShardSplitting, List.mem_cons]
          exact ⟨_, Or.inl rfl, rfl⟩
        · rename_i hout hnin hnleft hnright
          have hhi : e.1.hi = range.hi := by omega
          exact ⟨e, List.mem_cons_self _ _, hhi⟩

theorem coversFrom_dropBelow {endK stop : Nat} :
    ∀ {l : EntryList} {pos : Nat}, coversFrom pos endK l = true →
      (pos = stop ∨ ∃ e ∈ l, e.1.hi = stop) →
      coversFrom stop endK (dropBelow stop l) = true := by
  intro l
  induction l with
  | nil =>
      intro pos h hb
      simp only [coversFrom, beq_iff_eq] at h
      rcases hb with rfl | ⟨e, he, -⟩
      · simpa [dropBelow, coversFrom] using h
      · simp at he
  | cons e rest ih =>
      intro pos h hb
      have h' := h
      simp only [coversFrom, Bool.and_eq_true, beq_iff_eq, decide_eq_true_eq,
        true_and, and_true] at h
      rcases hb with rfl | ⟨e', he', hhi⟩
      · rw [dropBelow, if_neg (by omega)]
        exact h'
      · rcases List.mem_cons.mp he' with rfl | hmem
        · rw [dropBelow, if_pos (by omega)]
          exact ih h.2 (Or.inl hhi)
        · have hbnd := coversFrom_mem_bounds h.2 e' hmem
          rw [dropBelow, if_pos (by omega)]
          exact ih h.2 (Or.inr ⟨e', hmem, hhi⟩)

theorem coversFrom_consCoalesced {endK lo hi : Nat} {info : ShardInfo}
    {m : EntryList} (h : coversFrom hi endK m = true) (hlt : lo < hi) :
    coversFrom lo endK (consCoalesced lo hi info m) = true := by
  cases m with
  | nil =>
      simp only [coversFrom, beq_iff_eq] at h
      simp only [consCoalesced, coversFrom, Bool.and_eq_true, beq_iff_eq,
        decide_eq_true_eq, true_and, and_true]
      omega
  | cons f rest =>
      simp only [coversFrom, Bool.and_eq_true, beq_iff_eq, decide_eq_true_eq,
        true_and, and_true] at h
      rw [consCoalesced]
      by_cases hc : f.1.lo = hi ∧ f.2 = info
      · rw [if_pos hc]
        simp only [coversFrom, Bool.and_eq_true, beq_iff_eq, decide_eq_true_eq,
          true_and, and_true]
        exact ⟨by omega, h.2⟩
      · rw [if_neg hc]
        simp only [coversFrom, Bool.and_eq_true, beq_iff_eq, decide_eq_true_eq,
          true_and, and_true]
        exact ⟨hlt, ⟨h.1.1, h.1.2⟩, h.2⟩

theorem coversFrom_insertAligned {endK : Nat} {info : ShardInfo} :
    ∀ {l : EntryList} {range : KeyRangeRef} {pos : Nat}, range.lo < range.hi →
      coversFrom pos endK l = true → pos ≤ range.lo →
      (pos = range.lo ∨ ∃ e ∈ l, e.1.lo = range.lo) →
      (∃ e ∈ l, e.1.hi = range.hi) →
      coversFrom pos endK (insertAligned range info l) = true := by
  intro l
  induction l with
  | nil => rintro range pos hr h hpos hlo ⟨e, he, -⟩; simp at he
  | cons e rest ih =>
      intro range pos hr h hpos hlo hhi
      have h' := h
      simp only [coversFrom, Bool.and_eq_true, beq_iff_eq, decide_eq_true_eq,
        true_and, and_true] at h
      by_cases hcase : e.1.hi ≤ range.lo
      · by_cases habs : e.1.hi = range.lo ∧ e.2 = info
        · obtain ⟨habs1, habs2⟩ := habs
          rw [insertAligned, if_pos hcase, if_pos ⟨habs1, habs2⟩]
          cases rest with
          | nil =>
              exfalso
              rcases hhi with ⟨e1, he1, h1⟩
              rcases List.mem_cons.mp he1 with rfl | hm
              · omega
              · simp at hm
          | cons f rest' =>
              have hfb := coversFrom_mem_bounds h.2 f (List.mem_cons_self _ _)
              rw [insertAligned]
              dsimp only
              rw [if_neg (by omega)]
              have hhirest : ∃ e1 ∈ f :: rest', e1.1.hi = range.hi := by
                rcases hhi with ⟨e1, he1, h1⟩
                rcases List.mem_cons.mp he1 with rfl | hm
                · exfalso; omega
                · exact ⟨e1, hm, h1⟩
              have hdrop := coversFrom_dropBelow h.2 (Or.inr hhirest)
              have hgoal := @coversFrom_consCoalesced endK e.1.lo range.hi info
                (dropBelow range.hi (f :: rest')) hdrop (by omega)
              rw [← h.1.1]
              exact hgoal
        · rw [insertAligned, if_pos hcase, if_neg habs]
          have hlo' : ∃ e' ∈ rest, e'.1.lo = range.lo := by
            rcases hlo with rfl | ⟨e0, he0, h0⟩
            · exfalso; omega
            · rcases List.mem_cons.mp he0 with rfl | hmem
              · exfalso; omega
              · exact ⟨e0, hmem, h0⟩
          have hhi' : ∃ e' ∈ rest, e'.1.hi = range.hi := by
            rcases hhi with ⟨e1, he1, h1⟩
            rcases List.mem_cons.mp he1 with rfl | hmem
            · exfalso; omega
            · exact ⟨e1, hmem, h1⟩
          simp only [coversFrom, Bool.and_eq_true, beq_iff_eq, decide_eq_true_eq,
            true_and, and_true]
          exact ⟨⟨h.1.1, h.1.2⟩, ih hr h.2 (by omega) (Or.inr hlo') hhi'⟩
      · rw [insertAligned, if_neg hcase]
        have hple : pos = range.lo := by
          rcases hlo with rfl | ⟨e0, he0, h0⟩
          · rfl
          · rcases List.mem_cons.mp he0 with rfl | hmem
            · omega
            · have := coversFrom_mem_bounds h.2 e0 hmem
              omega
        have hdrop := coversFrom_dropBelow h' (Or.inr hhi)
        have hgoal := @coversFrom_consCoalesced endK range.lo range.hi info
          (dropBelow range.hi (e :: rest)) hdrop hr
        rw [hple]
        exact hgoal

theorem mem_dropBelow {stop : Nat} {p : KeyRangeRef × ShardInfo} :
    ∀ {l : EntryList}, p ∈ dropBelow stop l → p ∈ l := by
  intro l
  induction l with
  | nil => intro h; simp [dropBelow] at h
  | cons e rest ih =>
      intro h
      rw [dropBelow] at h
      by_cases hc : e.1.hi ≤ stop
      · rw [if_pos hc] at h
        exact List.mem_cons_of_mem _ (ih h)
      · rwa [if_neg hc] at h

theorem consCoalesced_pure {lo hi : Nat} {info : ShardInfo} {m : EntryList}
    {p : KeyRangeRef × ShardInfo} (hp : p ∈ consCoalesced lo hi info m) :
    p.2 = info ∨ p ∈ m := by
  cases m with
  | nil =>
      simp only [consCoalesced, List.mem_singleton] at hp
      exact Or.inl (by rw [hp])
  | cons f rest =>
      rw [consCoalesced] at hp
      by_cases hc : f.1.lo = hi ∧ f.2 = info
      · rw [if_pos hc] at hp
        rcases List.mem_cons.mp hp with rfl | hm
        · exact Or.inl rfl
        · exact Or.inr (List.mem_cons_of_mem _ hm)
      · rw [if_neg hc] at hp
        rcases List.mem_cons.mp hp with rfl | hm
        · exact Or.inl rfl
        · exact Or.inr hm

theorem insertAligned_pure {info : ShardInfo} {p : KeyRangeRef × ShardInfo} :
    ∀ {l : EntryList} {range : KeyRangeRef}, p ∈ insertAligned range info l →
      p.2 = info ∨ p ∈ l := by
  intro l
  induction l with
  | nil => intro range h; simp [insertAligned] at h
  | cons e rest ih =>
      intro range h
      rw [insertAligned] at h
      by_cases hc : e.1.hi ≤ range.lo
      · rw [if_pos hc] at h
        by_cases habs : e.1.hi = range.lo ∧ e.2 = info
        · rw [if_pos habs] at h
          rcases ih h with h1 | h1
          · exact Or.inl h1
          · exact Or.inr (List.mem_cons_of_mem _ h1)
        · rw [if_neg habs] at h
          rcases List.mem_cons.mp h with rfl | hm
          · exact Or.inr (List.mem_cons_self _ _)
          · rcases ih hm with h1 | h1
            · exact Or.inl h1
            · exact Or.inr (List.mem_cons_of_mem _ h1)
      · rw [if_neg hc] at h
        rcases consCoalesced_pure h with h1 | h1
        · exact Or.inl h1
        · exact Or.inr (mem_dropBelow h1)

theorem insertAligned_installs {info : ShardInfo} :
    ∀ {l : EntryList} {range : KeyRangeRef}, range.lo < range.hi →
      (∀ e ∈ l, e.1.lo < e.1.hi) → (∃ e ∈ l, range.lo < e.1.hi) →
      ∃ r' : KeyRangeRef, (r', info) ∈ insertAligned range info l ∧
        r'.lo ≤ range.lo ∧ range.hi ≤ r'.hi := by
  intro l
  induction l with
  | nil => rintro range hr hwf ⟨e, he, -⟩; simp at he
  | cons e rest ih =>
      rintro range hr hwf ⟨e0, he0, h0⟩
      have hewf := hwf e (List.mem_cons_self _ _)
      rw [insertAligned]
      by_cases hc : e.1.hi ≤ range.lo
      · rw [if_pos hc]
        have he0r : e0 ∈ rest := by
          rcases List.mem_cons.mp he0 with rfl | hm
          · exfalso; omega
          · exact hm
        have hwfr : ∀ x ∈ rest, x.1.lo < x.1.hi :=
          fun x hx => hwf x (List.mem_cons_of_mem _ hx)
        by_cases habs : e.1.hi = range.lo ∧ e.2 = info
        · obtain ⟨habs1, habs2⟩ := habs
          rw [if_pos ⟨habs1, habs2⟩]
          obtain ⟨r', hmem, hl, hh⟩ := @ih ⟨e.1.lo, range.hi⟩
            (by dsimp only; omega) hwfr ⟨e0, he0r, by dsimp only; omega⟩
          dsimp only at hl hh
          exact ⟨r', hmem, by omega, hh⟩
        · rw [if_neg habs]
          obtain ⟨r', hmem, hl, hh⟩ := @ih range hr hwfr ⟨e0, he0r, h0⟩
          exact ⟨r', List.mem_cons_of_mem _ hmem, hl, hh⟩
      · rw [if_neg hc]
        cases hd : dropBelow range.hi (e :: rest) with
        | nil =>
            rw [consCoalesced]
            exact ⟨⟨range.lo, range.hi⟩, List.mem_singleton.mpr rfl,
              Nat.le_refl _, Nat.le_refl _⟩
        | cons f rest' =>
            have hf : f ∈ e :: rest :=
              mem_dropBelow (by rw [hd]; exact List.mem_cons_self _ _)
            have hfwf := hwf f hf
            rw [consCoalesced]
            by_cases hcc : f.1.lo = range.hi ∧ f.2 = info
            · obtain ⟨hcc1, hcc2⟩ := hcc
              rw [if_pos ⟨hcc1, hcc2⟩]
              exact ⟨⟨range.lo, f.1.hi⟩, List.mem_cons_self _ _,
                Nat.le_refl _, by dsimp only; omega⟩
            · rw [if_neg hcc]
              exact ⟨⟨range.lo, range.hi⟩, List.mem_cons_self _ _,
                Nat.le_refl _, Nat.le_refl _⟩

theorem setShardStatus_covers {mss : MockStorageServer} {range : KeyRangeRef}
    {status : MockShardStatus} {restrictSize : Bool} {minB maxB : Nat}
    {sample : Nat → Nat → Nat} {s' : MockStorageServer}
    (hcov : fullyCovers mss = true) (hlt : range.lo < range.hi)
    (hle : range.hi ≤ allKeysEnd)
    (h : setShardStatus mss range status restrictSize minB maxB sample = some s') :
    fullyCovers s' = true := by
  unfold fullyCovers at hcov ⊢
  unfold setShardStatus at h
  dsimp only at h
  split at h
  · exact absurd h (by simp)
  · split at h
    · obtain rfl : _ = s' := Option.some.inj h
      have hal : coversFrom 0 allKeysEnd
          (splitAll range restrictSize minB maxB sample mss.serverKeys) = true :=
        coversFrom_splitAll hlt hcov
      obtain ⟨e0, he0, hb0⟩ :=
        coversFrom_exists_mem (x := range.lo) hcov (Nat.zero_le _) (by omega)
      obtain ⟨p0, hp0, hp0lo⟩ :=
        @splitEntry_lo_boundary range restrictSize minB maxB sample e0 hb0.1 hb0.2 hlt
      obtain ⟨e1, he1, hb1⟩ :=
        coversFrom_exists_mem (x := range.hi - 1) hcov (Nat.zero_le _) (by omega)
      obtain ⟨p1, hp1, hp1hi⟩ :=
        @splitEntry_hi_boundary range restrictSize minB maxB sample e1
          (by omega) (by omega) hlt
      exact coversFrom_insertAligned hlt hal (Nat.zero_le _)
        (Or.inr ⟨p0, mem_splitAll ⟨e0, he0, hp0⟩, hp0lo⟩)
        ⟨p1, mem_splitAll ⟨e1, he1, hp1⟩, hp1hi⟩
    · exact absurd h (by simp)

theorem removeShard_covers {mss : MockStorageServer} {range : KeyRangeRef}
    {s' : MockStorageServer} (hcov : fullyCovers mss = true)
    (hlt : range.lo < range.hi) (h : removeShard mss range = some s') :
    fullyCovers s' = true := by
  unfold fullyCovers at hcov ⊢
  unfold removeShard at h
  split at h
  · rename_i hcond
    obtain rfl : _ = s' := Option.some.inj h
    simp only [Bool.and_eq_true, List.any_eq_true, beq_iff_eq] at hcond
    exact coversFrom_insertAligned hlt hcov (Nat.zero_le _) (Or.inr hcond.1) hcond.2
  · exact absurd h (by simp)

/-- Total size carried by a list of entries. -/
def sumShardSizes (l : EntryList) : Nat :=
  (l.map fun e => e.2.shardSize).sum

theorem propParts_le {S a b w : Nat} (hab : a + b ≤ w) :
    S * a / w + S * b / w ≤ S := by
  rcases Nat.eq_zero_or_pos w with hw | hw
  · have ha : a = 0 := by omega
    have hb : b = 0 := by omega
    subst ha hb hw
    simp
  · have h1 : S * a / w * w ≤ S * a := Nat.div_mul_le_self _ _
    have h2 : S * b / w * w ≤ S * b := Nat.div_mul_le_self _ _
    have h3 : (S * a / w + S * b / w) * w ≤ S * w := by
      have h4 : S * a + S * b ≤ S * w := by
        calc S * a + S * b = S * (a + b) := by ring
          _ ≤ S * w := Nat.mul_le_mul_left _ hab
      calc (S * a / w + S * b / w) * w = S * a / w * w + S * b / w * w := by ring
        _ ≤ S * a + S * b := Nat.add_le_add h1 h2
        _ ≤ S * w := h4
    exact Nat.le_of_mul_le_mul_right h3 hw

theorem propPart_le {S a w : Nat} (ha : a ≤ w) : S * a / w ≤ S := by
  have h := propParts_le (S := S) (a := a) (b := 0) (w := w) (by omega)
  simpa using h

theorem twoWay_sum_restrict (r : KeyRangeRef) (sp : Nat) (info : ShardInfo)
    (minB maxB : Nat) (sample : Nat → Nat) (hsp : sp ≤ r.hi) :
    sumShardSizes (twoWayShardSplitting r sp info true minB maxB sample) =
      info.shardSize := by
  simp only [twoWayShardSplitting, sumShardSizes, List.map_cons, List.map_nil,
    List.sum_cons, List.sum_nil, if_true]
  have h := propPart_le (S := info.shardSize) (a := sp - r.lo) (w := r.hi - r.lo)
    (by omega)
  omega

theorem threeWay_sum_restrict (outer inner : KeyRangeRef) (info : ShardInfo)
    (minB maxB : Nat) (sample : Nat → Nat) (h1 : outer.lo ≤ inner.lo)
    (h2 : inner.lo ≤ inner.hi) (h3 : inner.hi ≤ outer.hi) :
    sumShardSizes (threeWayShardSplitting outer inner info true minB maxB sample) =
      info.shardSize := by
  simp only [threeWayShardSplitting, sumShardSizes, List.map_cons, List.map_nil,
    List.sum_cons, List.sum_nil, if_true]
  have h := propParts_le (S := info.shardSize) (a := inner.lo - outer.lo)
    (b := inner.hi - inner.lo) (w := outer.hi - outer.lo) (by omega)
  omega

theorem sampleBand_bounds {minB maxB : Nat} (h : minB ≤ maxB) (x : Nat) :
    minB ≤ sampleBand minB maxB x ∧ sampleBand minB maxB x ≤ maxB := by
  unfold sampleBand
  have hm : x % (maxB - minB + 1) < maxB - minB + 1 := Nat.mod_lt _ (by omega)
  omega

/-! ### Test fixtures -/

/-- §8 scenario: a single server owning the full key space at `COMPLETED`,
size 1000. -/
def scenarioServerS1 : MockStorageServer :=
  { usedDiskSpace := 0
    availableDiskSpace := DEFAULT_DISK_SPACE
    serverKeys := [(⟨0, allKeysEnd⟩, ⟨.COMPLETED, 1000⟩)]
    id := 1 }

/-- A fresh server: one full-keyspace entry at the `UNSET` default status. -/
def testServerUnset : MockStorageServer := {}

/-- A server whose index is already split at key 10. -/
def testServerTwo : MockStorageServer :=
  { serverKeys := [(⟨0, 10⟩, ⟨.COMPLETED, 5⟩), (⟨10, allKeysEnd⟩, ⟨.COMPLETED, 7⟩)]
    id := 2 }

/-! ### Claims -/

/-- Claim C1: the status-transition validator accepts exactly the table of
§4.2 — `isStatusTransitionValid from to` is true iff `from` is `UNSET`,
`EMPTY` or `INFLIGHT` and `to` is `COMPLETED`, `INFLIGHT` or `EMPTY`, or
`from` is `COMPLETED` and `to` is `EMPTY`; every other pair is rejected. -/
theorem C1_transition_table (f t : MockShardStatus) :
    isStatusTransitionValid f t = true ↔
      (((f = .UNSET ∨ f = .EMPTY ∨ f = .INFLIGHT) ∧
          (t = .COMPLETED ∨ t = .INFLIGHT ∨ t = .EMPTY)) ∨
        (f = .COMPLETED ∧ t = .EMPTY)) := by
  cases f <;> cases t <;> decide

/-- Claim C3: in the §8 scenario — a single server whose whole key space is
one `COMPLETED` shard of size 1000 — `setShardStatus([k10,k20), InFlight,
true)` is rejected by the state machine (`COMPLETED → INFLIGHT` is not
directly legal; the rejection is the fatal assertion, modelled as `none`)
rather than producing the three-way Completed/InFlight/Completed split. -/
theorem C3_completed_to_inflight_rejected (minB maxB : Nat)
    (sample : Nat → Nat → Nat) :
    setShardStatus scenarioServerS1 ⟨10, 20⟩ .INFLIGHT true minB maxB sample =
      none := by
  rfl

/-- Claim C4: for a `setShardStatus`-style split with `restrictSize = true`
(two-way or three-way, or no split at all), the sizes of the sub-shards an
existing shard of size `S` is divided into sum exactly to `S`. -/
theorem C4_restrict_split_sums (range : KeyRangeRef) (minB maxB : Nat)
    (sample : Nat → Nat → Nat) (e : KeyRangeRef × ShardInfo)
    (h : range.lo ≤ range.hi) :
    sumShardSizes (splitEntry range true minB maxB sample e) = e.2.shardSize := by
  unfold splitEntry
  split
  · simp [sumShardSizes]
  · split
    · rename_i hout hin
      push_neg at hout
      exact threeWay_sum_restrict _ _ _ _ _ _ (by omega) (by omega) (by omega)
    · split
      · rename_i hout hin hleft
        push_neg at hout
        exact twoWay_sum_restrict _ _ _ _ _ _ (by omega)
      · split
        · rename_i hout hin hleft hright
          exact twoWay_sum_restrict _ _ _ _ _ _ (by omega)
        · simp [sumShardSizes]

theorem C4_restrict_split_sums_witness :
    (10 ≤ 20) ∧
      sumShardSizes (splitEntry ⟨10, 20⟩ true 1 2 (fun _ _ => 0)
        (⟨0, 100⟩, ⟨.COMPLETED, 1000⟩)) = 1000 :=
  ⟨by decide,
    C4_restrict_split_sums ⟨10, 20⟩ 1 2 (fun _ _ => 0)
      (⟨0, 100⟩, ⟨.COMPLETED, 1000⟩) (by decide)⟩

/-- Claim C5: with `restrictSize = false`, every sub-shard produced by a
two-way or three-way split receives a sampled size within the configured band
`[minB, maxB]`, whatever the outcome of the random sampling. -/
theorem C5_sampled_split_sizes_in_band (minB maxB : Nat) (h : minB ≤ maxB) :
    (∀ (r : KeyRangeRef) (sp : Nat) (info : ShardInfo) (sample : Nat → Nat),
        ∀ p ∈ twoWayShardSplitting r sp info false minB maxB sample,
          minB ≤ p.2.shardSize ∧ p.2.shardSize ≤ maxB) ∧
    (∀ (outer inner : KeyRangeRef) (info : ShardInfo) (sample : Nat → Nat),
        ∀ p ∈ threeWayShardSplitting outer inner info false minB maxB sample,
          minB ≤ p.2.shardSize ∧ p.2.shardSize ≤ maxB) := by
  constructor
  · intro r sp info sample p hp
    simp only [twoWayShardSplitting, Bool.false_eq_true, if_false, List.mem_cons,
      List.not_mem_nil, or_false] at hp
    rcases hp with rfl | rfl
    · exact sampleBand_bounds h _
    · exact sampleBand_bounds h _
  · intro outer inner info sample p hp
    simp only [threeWayShardSplitting, Bool.false_eq_true, if_false, List.mem_cons,
      List.not_mem_nil, or_false] at hp
    rcases hp with rfl | rfl | rfl
    · exact sampleBand_bounds h _
    · exact sampleBand_bounds h _
    · exact sampleBand_bounds h _

theorem C5_sampled_split_sizes_in_band_witness :
    (3 ≤ 7) ∧ (3 ≤ (7 : Nat) ∧ (7 : Nat) ≤ 7) :=
  ⟨by decide,
    (C5_sampled_split_sizes_in_band 3 7 (by decide)).1 ⟨0, 10⟩ 4
      ⟨.COMPLETED, 5⟩ (fun _ => 9) (⟨0, 4⟩, ⟨.COMPLETED, 7⟩) (by decide)⟩

/-- Claim C9: after `addStorageServer(interface, diskSpace)`, the new server
model's range index is a single full-keyspace entry at the `UNSET` starting
status, and its available disk space equals the given `diskSpace`. -/
theorem C9_addStorageServer_init (mgs : MockGlobalState) (serverId diskSpace : Nat) :
    ∃ mss, lookupServer (addStorageServer mgs serverId diskSpace).allServers
        serverId = some mss ∧
      mss.serverKeys = [(⟨0, allKeysEnd⟩, ⟨.UNSET, 0⟩)] ∧
      mss.availableDiskSpace = diskSpace := by
  refine ⟨{ usedDiskSpace := 0
            availableDiskSpace := diskSpace
            serverKeys := [(⟨0, allKeysEnd⟩, ⟨.UNSET, 0⟩)]
            id := serverId }, ?_, rfl, rfl⟩
  simp [addStorageServer, lookupServer]

/-- Claim C10: no valid transition targets `UNSET` — for every status `f`,
`isStatusTransitionValid f UNSET` is false — so `setShardStatus` can never
install `UNSET`: with `UNSET` as the requested status it always fails with
the fatal assertion (modelled as `none`); only `removeShard` reinstates the
`UNSET` default. -/
theorem C10_no_transition_to_unset :
    (∀ f, isStatusTransitionValid f .UNSET = false) ∧
    (∀ (mss : MockStorageServer) (range : KeyRangeRef) (restrictSize : Bool)
        (minB maxB : Nat) (sample : Nat → Nat → Nat),
        setShardStatus mss range .UNSET restrictSize minB maxB sample = none) := by
  constructor
  · intro f; cases f <;> rfl
  · intro mss range restrictSize minB maxB sample
    unfold setShardStatus
    dsimp only
    split
    · rfl
    · rename_i hne
      split
      · rename_i hall
        exfalso
        apply hne
        rw [List.isEmpty_iff]
        by_contra hnil
        obtain ⟨x, hx⟩ := List.exists_mem_of_ne_nil _ hnil
        have hv := List.all_eq_true.mp hall x hx
        cases hs : x.2.status <;> rw [hs] at hv <;> simp [isStatusTransitionValid] at hv
      · rfl

/-- Claim C2: after every completed operation — a successful `setShardStatus`
(on a well-formed nonempty range inside the key space), a successful
`removeShard`, or `addStorageServer` — the server's `serverKeys` index still
tiles the whole key space: pairwise disjoint, contiguous entries whose union
is the entire key space. -/
theorem C2_serverKeys_full_coverage :
    (∀ (mss : MockStorageServer) (range : KeyRangeRef) (status : MockShardStatus)
        (restrictSize : Bool) (minB maxB : Nat) (sample : Nat → Nat → Nat)
        (s' : MockStorageServer),
        fullyCovers mss = true → range.lo < range.hi → range.hi ≤ allKeysEnd →
        setShardStatus mss range status restrictSize minB maxB sample = some s' →
        fullyCovers s' = true) ∧
    (∀ (mss : MockStorageServer) (range : KeyRangeRef) (s' : MockStorageServer),
        fullyCovers mss = true → range.lo < range.hi →
        removeShard mss range = some s' → fullyCovers s' = true) ∧
    (∀ (mgs : MockGlobalState) (serverId diskSpace : Nat) (m : MockStorageServer),
        lookupServer (addStorageServer mgs serverId diskSpace).allServers serverId =
          some m →
        fullyCovers m = true) := by
  refine ⟨?_, ?_, ?_⟩
  · intro mss range status restrictSize minB maxB sample s' h1 h2 h3 h4
    exact setShardStatus_covers h1 h2 h3 h4
  · intro mss range s' h1 h2 h3
    exact removeShard_covers h1 h2 h3
  · intro mgs serverId diskSpace m h
    simp only [addStorageServer, lookupServer, beq_self_eq_true, if_pos,
      Option.some.injEq] at h
    subst h
    simp only [fullyCovers]
    decide

theorem C2_serverKeys_full_coverage_witness :
    fullyCovers ((setShardStatus testServerUnset ⟨10, 20⟩ .INFLIGHT true 0 0
        fun _ _ => 0).getD default) = true ∧
    fullyCovers ((removeShard testServerTwo ⟨0, 10⟩).getD default) = true ∧
    fullyCovers ((lookupServer (addStorageServer {} 7 500).allServers 7).getD
        default) = true :=
  ⟨C2_serverKeys_full_coverage.1 testServerUnset ⟨10, 20⟩ .INFLIGHT true 0 0
      (fun _ _ => 0) _ (by decide) (by decide) (by decide) (by rfl),
   C2_serverKeys_full_coverage.2.1 testServerTwo ⟨0, 10⟩ _ (by decide)
      (by decide) (by rfl),
   C2_serverKeys_full_coverage.2.2 {} 7 500 _ (by rfl)⟩

/-- Claim C8: `removeShard(range)` requires `range` to be exactly
boundary-aligned with existing entries and performs no splitting: a
mis-aligned call is the fatal invariant violation (modelled as `none`, never
a recoverable result); an aligned call on a covering index installs the
`UNSET`/absence value over `range` — the entry installed (after the §4.1
coalescing with equal-valued neighbors) carries the `UNSET` default value and
covers `range`, and every entry of the result either carries that installed
value or is one of the original entries, unsplit. -/
theorem C8_removeShard_alignment :
    (∀ (mss : MockStorageServer) (range : KeyRangeRef),
        ((¬ ∃ e ∈ mss.serverKeys, e.1.lo = range.lo) ∨
          (¬ ∃ e ∈ mss.serverKeys, e.1.hi = range.hi)) →
        removeShard mss range = none) ∧
    (∀ (mss : MockStorageServer) (range : KeyRangeRef) (s' : MockStorageServer),
        fullyCovers mss = true → range.lo < range.hi →
        removeShard mss range = some s' →
        (∃ r' : KeyRangeRef, (r', (⟨.UNSET, 0⟩ : ShardInfo)) ∈ s'.serverKeys ∧
          r'.lo ≤ range.lo ∧ range.hi ≤ r'.hi) ∧
        ∀ p ∈ s'.serverKeys,
          p.2 = (⟨.UNSET, 0⟩ : ShardInfo) ∨ p ∈ mss.serverKeys) := by
  constructor
  · intro mss range hmis
    unfold removeShard
    rw [if_neg]
    intro hc
    simp only [Bool.and_eq_true, List.any_eq_true, beq_iff_eq] at hc
    rcases hmis with hm | hm
    · exact hm hc.1
    · exact hm hc.2
  · intro mss range s' hcov hlt h
    unfold fullyCovers at hcov
    unfold removeShard at h
    split at h
    · rename_i hcond
      obtain rfl : _ = s' := Option.some.inj h
      simp only [Bool.and_eq_true, List.any_eq_true, beq_iff_eq] at hcond
      obtain ⟨e1, he1, hhi⟩ := hcond.2
      have hwf : ∀ e ∈ mss.serverKeys, e.1.lo < e.1.hi := fun e he =>
        (coversFrom_mem_bounds hcov e he).2.1
      constructor
      · exact insertAligned_installs hlt hwf ⟨e1, he1, by omega⟩
      · intro p hp
        exact insertAligned_pure hp
    · exact absurd h (by simp)

theorem C8_removeShard_alignment_witness :
    removeShard testServerUnset ⟨5, 9⟩ = none ∧
    (∃ r' : KeyRangeRef, (r', (⟨.UNSET, 0⟩ : ShardInfo)) ∈
        ((removeShard testServerTwo ⟨0, 10⟩).getD default).serverKeys ∧
      r'.lo ≤ 0 ∧ 10 ≤ r'.hi) :=
  ⟨C8_removeShard_alignment.1 testServerUnset ⟨5, 9⟩ (by decide),
   (C8_removeShard_alignment.2 testServerTwo ⟨0, 10⟩ _ (by decide) (by decide)
      (by rfl)).1⟩

/-- Claim C6: `serverIsSourceForShard(serverId, shard)` is true iff some team
containing `serverId` is listed as a source team for `shard` in the
team-assignment map, and that server's local status for `shard` is
`COMPLETED` (every entry of its index intersecting `shard` has status
`COMPLETED`). -/
theorem C6_serverIsSourceForShard_iff (mgs : MockGlobalState) (serverId : Nat)
    (shard : KeyRangeRef) :
    serverIsSourceForShard mgs serverId shard = true ↔
      ((∃ team ∈ (getTeamsFor mgs.shardMapping shard).1, serverId ∈ team) ∧
        (∃ mss, lookupServer mgs.allServers serverId = some mss ∧
          ∀ e ∈ mss.serverKeys, overlaps e.1 shard = true →
            e.2.status = .COMPLETED)) := by
  unfold serverIsSourceForShard
  cases hl : lookupServer mgs.allServers serverId with
  | none => simp
  | some mss =>
      simp only [allShardStatusEqual, Bool.and_eq_true, List.all_eq_true,
        List.any_eq_true, Bool.or_eq_true, Bool.not_eq_true', beq_iff_eq,
        Option.some.injEq, exists_eq_left']
      constructor
      · rintro ⟨hall, team, hteam, hc⟩
        refine ⟨⟨team, hteam, by simpa using hc⟩, ?_⟩
        intro e he hov
        rcases hall e he with h | h
        · rw [hov] at h; cases h
        · exact h
      · rintro ⟨⟨team, hteam, hmem⟩, hall⟩
        refine ⟨?_, team, hteam, by simpa using hmem⟩
        intro e he
        by_cases hov : overlaps e.1 shard = true
        · exact Or.inr (hall e he hov)
        · exact Or.inl (by simpa using hov)

/-- Claim C7: `serverIsDestForShard(serverId, shard)` is true iff some team
containing `serverId` is listed as a destination team for `shard` in the
team-assignment map, and that server's local status for `shard` is `INFLIGHT`
or `COMPLETED` (every entry of its index intersecting `shard` has one of
those statuses). -/
theorem C7_serverIsDestForShard_iff (mgs : MockGlobalState) (serverId : Nat)
    (shard : KeyRangeRef) :
    serverIsDestForShard mgs serverId shard = true ↔
      ((∃ team ∈ (getTeamsFor mgs.shardMapping shard).2, serverId ∈ team) ∧
        (∃ mss, lookupServer mgs.allServers serverId = some mss ∧
          ∀ e ∈ mss.serverKeys, overlaps e.1 shard = true →
            (e.2.status = .INFLIGHT ∨ e.2.status = .COMPLETED))) := by
  unfold serverIsDestForShard
  cases hl : lookupServer mgs.allServers serverId with
  | none => simp
  | some mss =>
      simp only [Bool.and_eq_true, List.all_eq_true, List.any_eq_true,
        Bool.or_eq_true, Bool.not_eq_true', beq_iff_eq, Option.some.injEq,
        exists_eq_left']
      constructor
      · rintro ⟨hall, team, hteam, hc⟩
        refine ⟨⟨team, hteam, by simpa using hc⟩, ?_⟩
        intro e he hov
        rcases hall e he with h | h
        · rw [hov] at h; cases h
        · exact h
      · rintro ⟨⟨team, hteam, hmem⟩, hall⟩
        refine ⟨?_, team, hteam, by simpa using hmem⟩
        intro e he
        by_cases hov : overlaps e.1 shard = true
        · exact Or.inr (hall e he hov)
        · exact Or.inl (by simpa using hov)
